import Mathlib

/-!
Verification development for the market-data ingestion pipeline
(`coredata_ingestion.py`, `configfirebase_config.py`).

Pure shallow embedding: machine floats are modelled as rationals with an
explicit NaN marker (the validator only compares and checks signs), time
is in integer milliseconds, stateful operations pass state explicitly,
and fallible operations return `Except`.  Components whose bodies are not
present in the visible source (the ingestion file is cut off inside
`fetch_historical_data`) are modelled from the specification and marked
as such in their doc comments.
-/

set_option maxRecDepth 20000
set_option maxHeartbeats 1600000

namespace MarketIngest

/-- Float-like value: a rational number or NaN.  IEEE comparisons against
NaN are all false, which `flt` reproduces. -/
inductive FVal where
  | nan : FVal
  | num : ℚ → FVal
deriving DecidableEq

def FVal.isNaN : FVal → Bool
  | .nan => true
  | .num _ => false

def FVal.isNeg : FVal → Bool
  | .nan => false
  | .num q => decide (q < 0)

/-- IEEE-style strict less-than: false whenever either side is NaN. -/
def FVal.flt : FVal → FVal → Bool
  | .num a, .num b => decide (a < b)
  | _, _ => false

def FVal.fmax : FVal → FVal → FVal
  | .num a, .num b => .num (max a b)
  | _, _ => .nan

def FVal.fmin : FVal → FVal → FVal
  | .num a, .num b => .num (min a b)
  | _, _ => .nan

/-- One OHLCV record (spec §3).  `open` is a Lean keyword, hence `open_`. -/
structure Candle where
  timestamp : ℕ
  open_ : FVal
  high : FVal
  low : FVal
  close : FVal
  volume : FVal
deriving DecidableEq

/-- `(exchangeId, symbol, timeframe)` identifying one logical candle stream. -/
structure SeriesKey where
  exchangeId : String
  symbol : String
  timeframe : String
deriving DecidableEq

/-- Cache entries are strictly ascending in timestamp. -/
abbrev EntrySorted (l : List Candle) : Prop :=
  l.Pairwise (fun a b => a.timestamp < b.timestamp)

/-- Modelled from the spec: Ingestion Cache single-candle merge (§4.6,
missing from the truncated source).  Insert in timestamp order; a
duplicate timestamp replaces the stored record only when it is the
most-recent (still-open) bucket, i.e. the last element of the sorted
entry, and is otherwise dropped as a no-op. -/
def mergeOne : List Candle → Candle → List Candle
  | [], c => [c]
  | x :: xs, c =>
    if c.timestamp < x.timestamp then c :: x :: xs
    else if c.timestamp = x.timestamp then
      if xs.isEmpty then [c] else x :: xs
    else x :: mergeOne xs c

/-- Modelled from the spec: `merge(seriesKey, candles)` folds the page
into the per-SeriesKey cache entry (§4.6). -/
def merge (entry : List Candle) (page : List Candle) : List Candle :=
  page.foldl mergeOne entry

/-- A timestamp is present in an entry. -/
def hasTs (l : List Candle) (t : ℕ) : Prop :=
  ∃ x ∈ l, x.timestamp = t

inductive RejectReason where
  | nanOrNegative
  | ohlcInconsistent
  | misaligned
  | stale
deriving DecidableEq

/-- Modelled from the spec: Validator/Cleanser rules (§4.5), applied in
order; the validator body is missing from the truncated source.  Rule
(a): NaN or negative field; rule (b): OHLC inconsistency; rule (c):
timeframe alignment; rule (d): older than watermark minus one unit. -/
def validate (tf watermark : ℕ) (c : Candle) : Option RejectReason :=
  if c.open_.isNaN || c.high.isNaN || c.low.isNaN || c.close.isNaN || c.volume.isNaN
      || c.open_.isNeg || c.high.isNeg || c.low.isNeg || c.close.isNeg
      || c.volume.isNeg then
    some RejectReason.nanOrNegative
  else if FVal.flt c.high c.low || FVal.flt c.high (FVal.fmax c.open_ c.close)
      || FVal.flt (FVal.fmin c.open_ c.close) c.low then
    some RejectReason.ohlcInconsistent
  else if c.timestamp % tf ≠ 0 then
    some RejectReason.misaligned
  else if c.timestamp + tf < watermark then
    some RejectReason.stale
  else
    none

/-- Modelled from the spec: rejected rows are logged and skipped, the
remaining rows of the page proceed (§4.5 partial-failure semantics). -/
def pageValid (tf watermark : ℕ) (page : List Candle) : List Candle :=
  page.filter (fun c => (validate tf watermark c).isNone)

/-- Modelled from the spec: one page flows through the Validator and is
merged into the Ingestion Cache (§4.3, §4.6). -/
def ingestPage (tf watermark : ℕ) (entry page : List Candle) : List Candle :=
  merge entry (pageValid tf watermark page)

/-- Modelled from the spec: Historical Fetcher pagination (§4.3), missing
from the truncated source.  Decomposes the range into pages of at most
`pageLimit` rows, advances `since` one timeframe unit past the last row
of the previous page, validates each page, deduplicates the boundary
timestamp, and stops on a short page or when `untilTs` is passed. -/
def fetchLoop (exch : ℕ → ℕ → List Candle) (tf pageLimit untilTs : ℕ) :
    ℕ → ℕ → ℕ → List Candle
  | 0, _, _ => []
  | fuel + 1, since, wm =>
    if untilTs < since then []
    else
      let page := exch since pageLimit
      match page.getLast? with
      | none => []
      | some lastC =>
        let valid := pageValid tf wm page
        if page.length < pageLimit then valid
        else
          valid ++ (fetchLoop exch tf pageLimit untilTs fuel
              (lastC.timestamp + tf) lastC.timestamp).filter
            (fun c2 => decide (lastC.timestamp < c2.timestamp))

/-- Modelled from the spec: `fetchHistorical` entry point (§4.3). -/
def fetch_historical (exch : ℕ → ℕ → List Candle)
    (tf pageLimit sinceTs untilTs : ℕ) : List Candle :=
  fetchLoop exch tf pageLimit untilTs (untilTs + 2 - sinceTs) sinceTs 0

/-- A maximally simple valid candle at timestamp `t`. -/
def mkCandle (t : ℕ) : Candle :=
  ⟨t, FVal.num 1, FVal.num 1, FVal.num 1, FVal.num 1, FVal.num 1⟩

/-- Test exchange for the three-page scenario: 3400 one-unit candles at
timestamps 0..3399; honors `since` and `limit`, so page requests of
limit 1000 return 1000, 1000, 1000 and finally 400 rows. -/
def histExch (since limit : ℕ) : List Candle :=
  if since < 3400 then (List.range' since (min limit (3400 - since))).map mkCandle
  else []

structure Exchange where
  id : String
  enableRateLimit : Bool
  timeoutMs : ℕ
deriving DecidableEq

inductive InitError where
  | unsupportedExchange : String → InitError
deriving DecidableEq

/-- `_init_exchange` (source lines 43-59): dynamic lookup of the CCXT
client factory; an unknown identifier raises (the spec's
`UnsupportedExchangeError`).  `ccxtHas` models `getattr(ccxt, id, None)`
being a client factory. -/
def init_exchange (ccxtHas : String → Bool) (id : String) :
    Except InitError Exchange :=
  if ccxtHas id then Except.ok ⟨id, true, 30000⟩
  else Except.error (InitError.unsupportedExchange id)

/-- Source line 36. -/
def supported_exchanges : List String := ["binance", "coinbase", "kraken", "bybit"]

/-- `_validate_exchange` (source lines 61-64): advisory log only, never
an error. -/
def validate_exchange (id : String) : Option String :=
  if id ∈ supported_exchanges then none else some "not in optimized list"

/-- Exchange resolution as performed by the constructor: dynamic lookup,
then the advisory check. -/
def resolveExchange (ccxtHas : String → Bool) (id : String) :
    Except InitError (Exchange × Option String) :=
  match init_exchange ccxtHas id with
  | Except.error e => Except.error e
  | Except.ok ex => Except.ok (ex, validate_exchange id)

structure RateLimitState where
  lastRequestTime : ℕ
  minInterval : ℕ
deriving DecidableEq

/-- `__init__` lines 40-41: `last_request_time = 0` and
`request_interval = 0.2` seconds, i.e. 200 ms. -/
def initRateLimit : RateLimitState := ⟨0, 200⟩

/-- Modelled from the spec: `acquire` blocks the caller until
`minInterval` has elapsed since the last granted acquisition, then
records the new grant time (§4.2; `_rate_limit` is called at line 77 but
its body is missing from the truncated source).  Time is in ms. -/
def acquire (st : RateLimitState) (now : ℕ) : ℕ × RateLimitState :=
  (max now (st.lastRequestTime + st.minInterval),
   ⟨max now (st.lastRequestTime + st.minInterval), st.minInterval⟩)

structure IngestionFailedError where
  seriesKey : SeriesKey
  cause : String
deriving DecidableEq

/-- Exponential backoff delay in ms slept after failed attempt
`attempt`: base 1 s, cap 30 s (spec §4.3 and §6 defaults). -/
def backoffDelay (attempt : ℕ) : ℕ := min (1000 * 2 ^ attempt) 30000

/-- Modelled from the spec: a transient page error retries with backoff
for at most the remaining attempt budget, then the whole fetch fails
with `IngestionFailedError` carrying the series key and the last cause
(§4.3; the error-recovery branch of `fetch_historical_data` is missing
from the truncated source).  Returns the delays slept and the outcome. -/
def retryFetch (key : SeriesKey) (att : ℕ → Except String (List Candle)) :
    ℕ → ℕ → List ℕ × Except IngestionFailedError (List Candle)
  | _, 0 => ([], Except.error ⟨key, "no attempts"⟩)
  | i, rem + 1 =>
    match att i with
    | Except.ok rows => ([], Except.ok rows)
    | Except.error cause =>
      if rem = 0 then ([], Except.error ⟨key, cause⟩)
      else
        (backoffDelay i :: (retryFetch key att (i + 1) rem).1,
         (retryFetch key att (i + 1) rem).2)

/-- One page fetch with the default budget of 5 attempts (spec §6:
`maxRetries` default 5). -/
def fetchPage (key : SeriesKey) (att : ℕ → Except String (List Candle)) :
    List ℕ × Except IngestionFailedError (List Candle) :=
  retryFetch key att 0 5

/-- Opaque Firestore client; `healthWritten` records the connection test
write performed during `_initialize`. -/
structure FirestoreDb where
  healthWritten : Bool
deriving DecidableEq

inductive FbError where
  | fileNotFound
  | initFailed : String → FbError
deriving DecidableEq

/-- Environment consulted by `_find_credentials` and `_initialize`:
which paths exist (`Path.exists`, directories included), the
`FIREBASE_CREDENTIALS_PATH` variable, the home directory, and whether
certificate loading plus the Firestore connection test succeed for a
given credentials path. -/
structure FsEnv where
  fileExists : String → Bool
  fbCredEnvVar : Option String
  homeDir : String
  certValid : String → Bool

/-- `Path(os.getenv("FIREBASE_CREDENTIALS_PATH", ""))`: pathlib
normalizes the empty string to `"."`. -/
def pathOfEnvVar : Option String → String
  | none => "."
  | some "" => "."
  | some s => s

/-- The four candidate paths of `_find_credentials` (source lines
27-32), in source order. -/
def possiblePaths (e : FsEnv) : List String :=
  ["config/firebase_credentials.json", "firebase_credentials.json",
   pathOfEnvVar e.fbCredEnvVar, e.homeDir ++ "/.config/firebase_credentials.json"]

/-- `_find_credentials` (source lines 25-42): first candidate path that
exists, else `FileNotFoundError`. -/
def find_credentials (e : FsEnv) : Except FbError String :=
  match (possiblePaths e).find? (fun p => e.fileExists p) with
  | some p => Except.ok p
  | none => Except.error FbError.fileNotFound

/-- `_initialize` (source lines 44-66): certificate load, Firestore
client and connection test; any failure is logged and re-raised. -/
def initializeFb (e : FsEnv) (path : String) : Except FbError FirestoreDb :=
  if e.certValid path then Except.ok ⟨true⟩
  else Except.error (FbError.initFailed "certificate")

structure FirebaseManager where
  credentials_path : String
  db : FirestoreDb
deriving DecidableEq

/-- `FirebaseManager.__init__`: locate credentials, then initialize;
both failures propagate to the caller. -/
def FirebaseManager.create (e : FsEnv) : Except FbError FirebaseManager :=
  match find_credentials e with
  | Except.error err => Except.error err
  | Except.ok p =>
    match initializeFb e p with
    | Except.error err => Except.error err
    | Except.ok db => Except.ok ⟨p, db⟩

/-- `get_firebase` (source lines 89-94): module-level singleton
accessor, with the module-global `firebase_manager` passed and returned
explicitly. -/
def get_firebase (e : FsEnv) (st : Option FirebaseManager) :
    Except FbError FirebaseManager × Option FirebaseManager :=
  match st with
  | some m => (Except.ok m, some m)
  | none =>
    match FirebaseManager.create e with
    | Except.ok m => (Except.ok m, some m)
    | Except.error err => (Except.error err, none)

inductive AppError where
  | exchange : InitError → AppError
  | firebase : FbError → AppError
deriving DecidableEq

structure MarketDataIngestor where
  exchange : Exchange
  firebase : FirestoreDb
  warning : Option String
  last_request_time : ℕ
  request_interval_ms : ℕ
deriving DecidableEq

/-- `MarketDataIngestor.__init__` (source lines 29-41) in source order:
`_init_exchange`, `get_firebase().get_db()`, `_validate_exchange`, then
the rate-limit fields.  Every exception propagates out of the
constructor. -/
def MarketDataIngestor.create (ccxtHas : String → Bool) (exchange_id : String)
    (e : FsEnv) (st : Option FirebaseManager) :
    Except AppError (MarketDataIngestor × Option FirebaseManager) :=
  match init_exchange ccxtHas exchange_id with
  | Except.error err => Except.error (AppError.exchange err)
  | Except.ok ex =>
    match get_firebase e st with
    | (Except.error err, _) => Except.error (AppError.firebase err)
    | (Except.ok m, st') =>
      Except.ok (⟨ex, m.db, validate_exchange exchange_id, 0, 200⟩, st')

/-- Witness environment: no credentials file anywhere, variable unset;
only the working directory `"."` exists, as it always does. -/
def envNoCreds : FsEnv :=
  ⟨fun p => decide (p = "."), none, "/home/user", fun _ => false⟩

/-- Witness environment: variable set to a nonexistent path, no
credentials file, working directory still present. -/
def envVarSet : FsEnv :=
  ⟨fun p => decide (p = "."), some "/nope/creds.json", "/home/user", fun _ => false⟩

/-- Witness environment: valid credentials at the first candidate path. -/
def envGood : FsEnv :=
  ⟨fun p => decide (p = "config/firebase_credentials.json"), none,
   "/home/user", fun _ => true⟩

def mgrGood : FirebaseManager := ⟨"config/firebase_credentials.json", ⟨true⟩⟩

/-- An invalid candle: `high < low` (high 0, low 1), everything else fine. -/
def badCandle (t : ℕ) : Candle :=
  ⟨t, FVal.num 1, FVal.num 0, FVal.num 1, FVal.num 1, FVal.num 1⟩

/-- A 1000-row page: row 500 has `high < low`, the other 999 are valid. -/
def page1000 : List Candle :=
  (List.range 1000).map (fun i => if i = 500 then badCandle i else mkCandle i)

def sampleCandle (t : ℕ) (v : ℚ) : Candle :=
  ⟨t, FVal.num v, FVal.num v, FVal.num v, FVal.num v, FVal.num 1⟩

def sampleEntry : List Candle := [sampleCandle 1 1, sampleCandle 5 1]

def samplePage : List Candle := [sampleCandle 3 1, sampleCandle 5 2]

/-- Witness attempt oracle: every attempt fails transiently. -/
def attFail : ℕ → Except String (List Candle) :=
  fun _ => Except.error "network timeout"

/-- Witness attempt oracle: the first two attempts fail, the third
succeeds. -/
def attFlaky : ℕ → Except String (List Candle) :=
  fun i => if i < 2 then Except.error "network timeout" else Except.ok [mkCandle 0]

def wKey : SeriesKey := ⟨"binance", "BTC-USDT", "1h"⟩

end MarketIngest

namespace MarketIngest

theorem mergeOne_ne_nil (l : List Candle) (c : Candle) : mergeOne l c ≠ [] := by
  induction l with
  | nil => simp [mergeOne]
  | cons x xs ih =>
    simp only [mergeOne]
    split_ifs <;> simp_all

theorem mem_mergeOne {l : List Candle} {c y : Candle}
    (h : y ∈ mergeOne l c) : y ∈ l ∨ y = c := by
  induction l with
  | nil => simp [mergeOne] at h; tauto
  | cons x xs ih =>
    simp only [mergeOne] at h
    split_ifs at h with h1 h2 h3
    · simp only [List.mem_cons] at h ⊢; tauto
    · simp only [List.mem_cons, List.not_mem_nil] at h ⊢; tauto
    · left; exact h
    · simp only [List.mem_cons] at h ⊢
      rcases h with h | h
      · tauto
      · rcases ih h with h' | h' <;> tauto

theorem mergeOne_sorted {l : List Candle} {c : Candle}
    (hl : EntrySorted l) : EntrySorted (mergeOne l c) := by
  induction l with
  | nil => simp [mergeOne, EntrySorted]
  | cons x xs ih =>
    rcases List.pairwise_cons.mp hl with ⟨hx, hxs⟩
    simp only [mergeOne]
    split_ifs with h1 h2 h3
    · exact List.pairwise_cons.mpr
        ⟨by
          intro y hy
          rcases List.mem_cons.mp hy with rfl | hy
          · exact h1
          · exact lt_trans h1 (hx y hy), hl⟩
    · simp [EntrySorted]
    · exact hl
    · have hx' : x.timestamp < c.timestamp := by omega
      exact List.pairwise_cons.mpr
        ⟨by
          intro y hy
          rcases mem_mergeOne hy with hy | rfl
          · exact hx y hy
          · exact hx', ih hxs⟩

theorem merge_sorted {entry : List Candle} (p : List Candle)
    (h : EntrySorted entry) : EntrySorted (merge entry p) := by
  induction p generalizing entry with
  | nil => exact h
  | cons c p' ih => exact ih (mergeOne_sorted h)

theorem mem_of_getLastQ {l : List Candle} {y : Candle}
    (h : l.getLast? = some y) : y ∈ l := by
  induction l with
  | nil => simp at h
  | cons x xs ih =>
    cases xs with
    | nil => simp_all
    | cons x2 xs2 =>
      rw [List.getLast?_cons_cons] at h
      exact List.mem_cons_of_mem x (ih h)

theorem ts_le_getLast {l : List Candle} {x y : Candle}
    (hs : EntrySorted l) (hx : x ∈ l) (hy : l.getLast? = some y) :
    x.timestamp ≤ y.timestamp := by
  induction l with
  | nil => simp at hx
  | cons a as ih =>
    rcases List.pairwise_cons.mp hs with ⟨ha, has⟩
    cases as with
    | nil =>
      simp at hx hy
      simp_all
    | cons a2 as2 =>
      rw [List.getLast?_cons_cons] at hy
      rcases List.mem_cons.mp hx with rfl | hx2
      · exact le_of_lt (ha y (mem_of_getLastQ hy))
      · exact ih has hx2 hy

/-- Dropping an incoming duplicate of a closed (non-final) bucket is a no-op. -/
theorem mergeOne_eq_of_dup_mid {l : List Candle} {a b c : Candle}
    (hs : EntrySorted l) (ha : a ∈ l) (hat : a.timestamp = c.timestamp)
    (hb : b ∈ l) (hbt : c.timestamp < b.timestamp) : mergeOne l c = l := by
  induction l with
  | nil => simp at ha
  | cons x xs ih =>
    rcases List.pairwise_cons.mp hs with ⟨hx, hxs⟩
    have hcx : ¬ c.timestamp < x.timestamp := by
      rcases List.mem_cons.mp ha with rfl | ha'
      · omega
      · have := hx a ha'
        omega
    simp only [mergeOne]
    rw [if_neg hcx]
    by_cases h2 : c.timestamp = x.timestamp
    · rw [if_pos h2]
      have hb' : b ∈ xs := by
        rcases List.mem_cons.mp hb with rfl | hb'
        · exact absurd hbt (by omega)
        · exact hb'
      have hne : ¬ xs.isEmpty = true := by
        cases xs with
        | nil => simp at hb'
        | cons _ _ => simp
      rw [if_neg hne]
    · rw [if_neg h2]
      have ha' : a ∈ xs := by
        rcases List.mem_cons.mp ha with rfl | h'
        · exact absurd hat.symm h2
        · exact h'
      have hb' : b ∈ xs := by
        rcases List.mem_cons.mp hb with rfl | h'
        · exact absurd hbt hcx
        · exact h'
      rw [ih hxs ha' hb']

/-- Re-merging the candle that is already the entry's last element is a no-op. -/
theorem mergeOne_eq_of_getLast {l : List Candle} {c : Candle}
    (hs : EntrySorted l) (h : l.getLast? = some c) : mergeOne l c = l := by
  induction l with
  | nil => simp at h
  | cons x xs ih =>
    rcases List.pairwise_cons.mp hs with ⟨hx, hxs⟩
    cases xs with
    | nil =>
      simp at h
      subst h
      simp [mergeOne]
    | cons x2 xs2 =>
      rw [List.getLast?_cons_cons] at h
      have hcx : x.timestamp < c.timestamp := hx c (mem_of_getLastQ h)
      rw [mergeOne, if_neg (by omega), if_neg (by omega), ih hxs h]

/-- Merging a candle newer than everything in the entry appends it. -/
theorem mergeOne_append {l : List Candle} {c : Candle}
    (hlt : ∀ x ∈ l, x.timestamp < c.timestamp) : mergeOne l c = l ++ [c] := by
  induction l with
  | nil => simp [mergeOne]
  | cons x xs ih =>
    have hx := hlt x (List.mem_cons_self x xs)
    simp only [mergeOne]
    rw [if_neg (by omega), if_neg (by omega)]
    rw [ih (fun y hy => hlt y (List.mem_cons_of_mem x hy))]
    simp

/-- Merging a candle at least as new as everything in the entry makes it
the last element. -/
theorem mergeOne_getLast_of_le {l : List Candle} {c : Candle}
    (hs : EntrySorted l) (hle : ∀ x ∈ l, x.timestamp ≤ c.timestamp) :
    (mergeOne l c).getLast? = some c := by
  induction l with
  | nil => simp [mergeOne]
  | cons x xs ih =>
    rcases List.pairwise_cons.mp hs with ⟨hx, hxs⟩
    have hxc := hle x (List.mem_cons_self x xs)
    simp only [mergeOne]
    by_cases h2 : c.timestamp = x.timestamp
    · rw [if_neg (by omega), if_pos h2]
      cases xs with
      | nil => simp
      | cons x2 xs2 =>
        exfalso
        have h3 := hle x2 (by simp)
        have h4 := hx x2 (by simp)
        omega
    · rw [if_neg (by omega), if_neg h2]
      have hrec := ih hxs (fun y hy => hle y (List.mem_cons_of_mem x hy))
      cases hm : mergeOne xs c with
      | nil => exact absurd hm (mergeOne_ne_nil xs c)
      | cons m ms =>
        rw [List.getLast?_cons_cons]
        rw [hm] at hrec
        exact hrec

theorem mem_merge {entry p : List Candle} {y : Candle}
    (h : y ∈ merge entry p) : y ∈ entry ∨ y ∈ p := by
  induction p generalizing entry with
  | nil => left; exact h
  | cons c p' ih =>
    rcases ih h with h' | h'
    · rcases mem_mergeOne h' with h'' | rfl
      · left; exact h''
      · right; simp
    · right; exact List.mem_cons_of_mem c h'

theorem hasTs_mergeOne_self (l : List Candle) (c : Candle) :
    hasTs (mergeOne l c) c.timestamp := by
  induction l with
  | nil => exact ⟨c, by simp [mergeOne], rfl⟩
  | cons x xs ih =>
    simp only [mergeOne]
    rcases Nat.lt_trichotomy c.timestamp x.timestamp with h1 | h1 | h1
    · rw [if_pos h1]
      exact ⟨c, by simp, rfl⟩
    · rw [if_neg (by omega), if_pos h1]
      cases xs with
      | nil => exact ⟨c, by simp, rfl⟩
      | cons y ys => exact ⟨x, by simp, by omega⟩
    · rw [if_neg (by omega), if_neg (by omega)]
      rcases ih with ⟨z, hz, hzt⟩
      exact ⟨z, List.mem_cons_of_mem x hz, hzt⟩

theorem hasTs_mergeOne_mono {l : List Candle} {t : ℕ} (c : Candle)
    (h : hasTs l t) : hasTs (mergeOne l c) t := by
  induction l with
  | nil =>
    rcases h with ⟨x, hx, _⟩
    simp at hx
  | cons x xs ih =>
    rcases h with ⟨z, hz, hzt⟩
    simp only [mergeOne]
    rcases Nat.lt_trichotomy c.timestamp x.timestamp with h1 | h1 | h1
    · rw [if_pos h1]
      exact ⟨z, List.mem_cons_of_mem c hz, hzt⟩
    · rw [if_neg (by omega), if_pos h1]
      rcases List.mem_cons.mp hz with rfl | hz'
      · cases xs with
        | nil => exact ⟨c, by simp, by omega⟩
        | cons y ys => exact ⟨z, by simp, hzt⟩
      · have hne : ¬ xs.isEmpty = true := by
          cases xs with
          | nil => simp at hz'
          | cons _ _ => simp
        rw [if_neg hne]
        exact ⟨z, List.mem_cons_of_mem x hz', hzt⟩
    · rw [if_neg (by omega), if_neg (by omega)]
      rcases List.mem_cons.mp hz with rfl | hz'
      · exact ⟨z, by simp, hzt⟩
      · rcases ih ⟨z, hz', hzt⟩ with ⟨w, hw, hwt⟩
        exact ⟨w, List.mem_cons_of_mem x hw, hwt⟩

theorem hasTs_merge_left {entry : List Candle} {t : ℕ} (p : List Candle)
    (h : hasTs entry t) : hasTs (merge entry p) t := by
  induction p generalizing entry with
  | nil => exact h
  | cons c p' ih => exact ih (hasTs_mergeOne_mono c h)

theorem hasTs_merge_of_mem {entry p : List Candle} {c : Candle}
    (h : c ∈ p) : hasTs (merge entry p) c.timestamp := by
  induction p generalizing entry with
  | nil => simp at h
  | cons c0 p' ih =>
    rcases List.mem_cons.mp h with rfl | h'
    · exact hasTs_merge_left p' (hasTs_mergeOne_self entry c)
    · exact ih h'

theorem foldl_mergeOne_fixed {l : List Candle} {p : List Candle}
    (h : ∀ c ∈ p, mergeOne l c = l) : p.foldl mergeOne l = l := by
  induction p with
  | nil => rfl
  | cons c p' ih =>
    rw [List.foldl_cons, h c (List.mem_cons_self c p')]
    exact ih (fun c' hc' => h c' (List.mem_cons_of_mem c hc'))

/-- In a strictly sorted entry, elements are determined by their timestamps. -/
theorem eq_of_mem_ts {l : List Candle} (hs : EntrySorted l) {a b : Candle}
    (ha : a ∈ l) (hb : b ∈ l) (ht : a.timestamp = b.timestamp) : a = b := by
  induction l with
  | nil => simp at ha
  | cons x xs ih =>
    rcases List.pairwise_cons.mp hs with ⟨hx, hxs⟩
    rcases List.mem_cons.mp ha with ha1 | ha1 <;>
      rcases List.mem_cons.mp hb with hb1 | hb1
    · rw [ha1, hb1]
    · exfalso
      have h2 := hx b hb1
      rw [ha1] at ht
      omega
    · exfalso
      have h2 := hx a ha1
      rw [hb1] at ht
      omega
    · exact ih hxs ha1 hb1

theorem getLastQ_isSome {l : List Candle} (h : l ≠ []) :
    ∃ y, l.getLast? = some y := by
  cases l with
  | nil => exact absurd rfl h
  | cons a as => exact ⟨(a :: as).getLast (by simp), List.getLast?_eq_getLast _ (by simp)⟩

/-- After merging `p' ++ [c]` where `c` is at least as new as everything,
`c` ends up as the entry's last element. -/
theorem merge_getLast {entry p' : List Candle} {c : Candle}
    (hs : EntrySorted entry)
    (he : ∀ x ∈ entry, x.timestamp ≤ c.timestamp)
    (hp : ∀ x ∈ p', x.timestamp ≤ c.timestamp) :
    (merge entry (p' ++ [c])).getLast? = some c := by
  have hfold : merge entry (p' ++ [c]) = mergeOne (merge entry p') c := by
    simp [merge, List.foldl_append]
  rw [hfold]
  apply mergeOne_getLast_of_le (merge_sorted p' hs)
  intro x hx
  rcases mem_merge hx with hx' | hx'
  · exact he x hx'
  · exact hp x hx'

/-- Merging a strictly newer sorted page appends it wholesale. -/
theorem merge_append_of_lt {l q : List Candle}
    (hl : EntrySorted l) (hq : EntrySorted q)
    (hlt : ∀ x ∈ l, ∀ y ∈ q, x.timestamp < y.timestamp) :
    merge l q = l ++ q := by
  induction q generalizing l with
  | nil => simp [merge]
  | cons c q' ih =>
    rcases List.pairwise_cons.mp hq with ⟨hc, hq'⟩
    have h1 : mergeOne l c = l ++ [c] :=
      mergeOne_append (fun x hx => hlt x hx c (List.mem_cons_self c q'))
    have hsort : EntrySorted (l ++ [c]) := by
      refine List.pairwise_append.mpr ⟨hl, List.pairwise_singleton _ c, ?_⟩
      intro x hx y hy
      rcases List.mem_singleton.mp hy with rfl
      exact hlt x hx y (List.mem_cons_self y q')
    have hlt' : ∀ x ∈ l ++ [c], ∀ y ∈ q', x.timestamp < y.timestamp := by
      intro x hx y hy
      rcases List.mem_append.mp hx with hx' | hx'
      · exact hlt x hx' y (List.mem_cons_of_mem c hy)
      · rcases List.mem_singleton.mp hx' with rfl
        exact hc y hy
    calc merge l (c :: q') = merge (mergeOne l c) q' := rfl
      _ = merge (l ++ [c]) q' := by rw [h1]
      _ = (l ++ [c]) ++ q' := ih hsort hq' hlt'
      _ = l ++ c :: q' := by simp

/-- Merging a sorted page into the empty entry reproduces the page. -/
theorem merge_nil_eq {q : List Candle} (hq : EntrySorted q) : merge [] q = q := by
  have := @merge_append_of_lt [] q (by simp [EntrySorted]) hq (by simp)
  simpa using this

/-- Re-merging a page whose timestamps are all present leaves the entry fixed. -/
theorem merge_merge_self {e p : List Candle}
    (he : EntrySorted e) (hp : EntrySorted p) :
    merge (merge e p) p = merge e p := by
  have hL : EntrySorted (merge e p) := merge_sorted p he
  apply foldl_mergeOne_fixed
  intro c hc
  obtain ⟨x, hxL, hxt⟩ := @hasTs_merge_of_mem e p c hc
  have hLne : merge e p ≠ [] := List.ne_nil_of_mem hxL
  obtain ⟨y, hy⟩ := getLastQ_isSome hLne
  have hyL : y ∈ merge e p := mem_of_getLastQ hy
  have hxy : x.timestamp ≤ y.timestamp := ts_le_getLast hL hxL hy
  rcases Nat.lt_or_ge c.timestamp y.timestamp with hlt | hge
  · exact mergeOne_eq_of_dup_mid hL hxL hxt hyL hlt
  · have hceq : c.timestamp = y.timestamp := by omega
    have hpne : p ≠ [] := List.ne_nil_of_mem hc
    obtain ⟨cl, hcl⟩ := getLastQ_isSome hpne
    have hclp : cl ∈ p := mem_of_getLastQ hcl
    obtain ⟨w, hwL, hwt⟩ := @hasTs_merge_of_mem e p cl hclp
    have hwy : w.timestamp ≤ y.timestamp := ts_le_getLast hL hwL hy
    have hccl : c.timestamp ≤ cl.timestamp := ts_le_getLast hp hc hcl
    have hceqcl : c = cl := eq_of_mem_ts hp hc hclp (by omega)
    have hsplit : p.dropLast ++ [cl] = p :=
      List.dropLast_append_getLast? cl hcl
    have hdrop : ∀ a ∈ p.dropLast, a.timestamp < cl.timestamp := by
      have hp' : EntrySorted (p.dropLast ++ [cl]) := by rw [hsplit]; exact hp
      have hp2 := List.pairwise_append.mp hp'
      intro a ha
      exact hp2.2.2 a ha cl (List.mem_singleton_self cl)
    have he' : ∀ a ∈ e, a.timestamp ≤ cl.timestamp := by
      intro a ha
      obtain ⟨z, hzL, hzt⟩ :=
        @hasTs_merge_left e a.timestamp p ⟨a, ha, rfl⟩
      have := ts_le_getLast hL hzL hy
      omega
    have hlast : (merge e (p.dropLast ++ [cl])).getLast? = some cl :=
      merge_getLast he he' (fun a ha => le_of_lt (hdrop a ha))
    rw [hsplit] at hlast
    rw [hceqcl]
    exact mergeOne_eq_of_getLast hL hlast

theorem validate_mkCandle {wm t : ℕ} (h : wm ≤ t + 1) :
    validate 1 wm (mkCandle t) = none := by
  have hnot : ¬ (t + 1 < wm) := by omega
  simp [validate, mkCandle, FVal.isNaN, FVal.isNeg, FVal.flt, FVal.fmax,
    FVal.fmin, Nat.mod_one, hnot]

theorem pageValid_range' {wm s k : ℕ} (h : wm ≤ s + 1) :
    pageValid 1 wm ((List.range' s k).map mkCandle)
      = (List.range' s k).map mkCandle := by
  apply List.filter_eq_self.mpr
  intro a ha
  rcases List.mem_map.mp ha with ⟨t, ht, rfl⟩
  have hst := (List.mem_range'_1.mp ht).1
  rw [validate_mkCandle (by omega)]
  rfl

theorem getLast_range'_map (s k : ℕ) :
    ((List.range' s (k + 1)).map mkCandle).getLast? = some (mkCandle (s + k)) := by
  rw [List.range'_concat, List.map_append]
  simp

theorem getLast_range'_map1000 (s : ℕ) :
    ((List.range' s 1000).map mkCandle).getLast? = some (mkCandle (s + 999)) := by
  rw [(by norm_num : (1000 : ℕ) = 999 + 1)]
  exact getLast_range'_map s 999

theorem getLast_range'_map400 (s : ℕ) :
    ((List.range' s 400).map mkCandle).getLast? = some (mkCandle (s + 399)) := by
  rw [(by norm_num : (400 : ℕ) = 399 + 1)]
  exact getLast_range'_map s 399

theorem ts_mem_range'_map {s k b : ℕ} (hb : b < s) :
    ∀ x ∈ (List.range' s k).map mkCandle, b < x.timestamp := by
  intro x hx
  rcases List.mem_map.mp hx with ⟨t, ht, rfl⟩
  have hst := (List.mem_range'_1.mp ht).1
  show b < t
  omega

theorem ts_mem_append {b : ℕ} {l1 l2 : List Candle}
    (h1 : ∀ x ∈ l1, b < x.timestamp) (h2 : ∀ x ∈ l2, b < x.timestamp) :
    ∀ x ∈ l1 ++ l2, b < x.timestamp := by
  intro x hx
  rcases List.mem_append.mp hx with h | h
  · exact h1 x h
  · exact h2 x h

theorem filter_ts_gt {b : ℕ} {l : List Candle} (h : ∀ x ∈ l, b < x.timestamp) :
    l.filter (fun c2 => decide (b < c2.timestamp)) = l :=
  List.filter_eq_self.mpr (fun a ha => by simpa using h a ha)

/-- One full-page iteration of the pagination loop over `histExch`. -/
theorem fetchLoop_step_full (fuel s wm : ℕ) (h1 : s ≤ 3399)
    (h2 : s + 1000 ≤ 3400) (h3 : wm ≤ s + 1) :
    fetchLoop histExch 1 1000 3399 (fuel + 1) s wm
      = (List.range' s 1000).map mkCandle
        ++ (fetchLoop histExch 1 1000 3399 fuel (s + 1000) (s + 999)).filter
            (fun c2 => decide (s + 999 < c2.timestamp)) := by
  have hx : histExch s 1000 = (List.range' s 1000).map mkCandle := by
    unfold histExch
    rw [if_pos (by omega), (by omega : min 1000 (3400 - s) = 1000)]
  simp only [fetchLoop]
  rw [if_neg (by omega), hx, getLast_range'_map1000 s]
  dsimp only
  rw [if_neg (by simp [List.length_range'])]
  rw [pageValid_range' h3]
  rfl

/-- The final short page (400 rows) stops the loop. -/
theorem fetchLoop_step_last (fuel wm : ℕ) (h3 : wm ≤ 3001) :
    fetchLoop histExch 1 1000 3399 (fuel + 1) 3000 wm
      = (List.range' 3000 400).map mkCandle := by
  have hx : histExch 3000 1000 = (List.range' 3000 400).map mkCandle := by
    unfold histExch
    norm_num
  simp only [fetchLoop]
  rw [if_neg (by omega), hx, getLast_range'_map400 3000]
  dsimp only
  rw [if_pos (by simp [List.length_range'])]
  exact pageValid_range' h3

theorem fetchLoop_at_3000 (fuel : ℕ) :
    fetchLoop histExch 1 1000 3399 (fuel + 1) 3000 2999
      = (List.range' 3000 400).map mkCandle :=
  fetchLoop_step_last fuel 2999 (by omega)

theorem fetchLoop_at_2000 (fuel : ℕ) :
    fetchLoop histExch 1 1000 3399 (fuel + 1 + 1) 2000 1999
      = (List.range' 2000 1000).map mkCandle
        ++ (List.range' 3000 400).map mkCandle := by
  rw [fetchLoop_step_full (fuel + 1) 2000 1999 (by omega) (by omega) (by omega)]
  norm_num
  rw [fetchLoop_at_3000 fuel]
  rw [filter_ts_gt (ts_mem_range'_map (by omega))]

theorem fetchLoop_at_1000 (fuel : ℕ) :
    fetchLoop histExch 1 1000 3399 (fuel + 1 + 1 + 1) 1000 999
      = (List.range' 1000 1000).map mkCandle
        ++ ((List.range' 2000 1000).map mkCandle
            ++ (List.range' 3000 400).map mkCandle) := by
  rw [fetchLoop_step_full (fuel + 1 + 1) 1000 999 (by omega) (by omega) (by omega)]
  norm_num
  rw [fetchLoop_at_2000 fuel]
  rw [filter_ts_gt (ts_mem_append (ts_mem_range'_map (by omega))
    (ts_mem_range'_map (by omega)))]

theorem fetchLoop_at_0 (fuel : ℕ) :
    fetchLoop histExch 1 1000 3399 (fuel + 1 + 1 + 1 + 1) 0 0
      = (List.range 3400).map mkCandle := by
  rw [fetchLoop_step_full (fuel + 1 + 1 + 1) 0 0 (by omega) (by omega) (by omega)]
  norm_num
  rw [fetchLoop_at_1000 fuel]
  rw [filter_ts_gt (ts_mem_append (ts_mem_range'_map (by omega))
    (ts_mem_append (ts_mem_range'_map (by omega)) (ts_mem_range'_map (by omega))))]
  rw [← List.map_append, ← List.map_append, ← List.map_append]
  rw [show (1000 : ℕ) = 1 * 1000 by norm_num]
  have e1 := List.range'_append 2000 1000 400 1
  have e2 := List.range'_append 1000 1000 1400 1
  have e3 := List.range'_append 0 1000 2400 1
  norm_num at e1 e2 e3
  rw [List.range_eq_range']
  norm_num [e1, e2, e3]

/-- The fully evaluated three-page fetch. -/
theorem fetch_historical_eval :
    fetch_historical histExch 1 1000 0 3399 = (List.range 3400).map mkCandle := by
  have h := fetchLoop_at_0 3397
  norm_num at h
  exact h

end MarketIngest

namespace MarketIngest

/-- Claim C1: for every sequence of candles fed through the Ingestion
Cache's merge for one SeriesKey, starting from any sorted cache entry,
the resulting entry is strictly sorted by timestamp and contains no
duplicate timestamps (the open-bucket revision replaces in place and
never breaks the order). -/
theorem merge_entry_sorted_nodup (entry page : List Candle)
    (h : EntrySorted entry) :
    EntrySorted (merge entry page)
      ∧ ((merge entry page).map Candle.timestamp).Nodup := by
  have hs := merge_sorted page h
  refine ⟨hs, ?_⟩
  have hmap : ((merge entry page).map Candle.timestamp).Pairwise (· < ·) :=
    List.pairwise_map.mpr hs
  exact List.Pairwise.imp Nat.ne_of_lt hmap

theorem merge_entry_sorted_nodup_witness :
    EntrySorted sampleEntry
      ∧ EntrySorted (merge sampleEntry samplePage)
      ∧ ((merge sampleEntry samplePage).map Candle.timestamp).Nodup := by
  have h : EntrySorted sampleEntry := by decide
  exact ⟨h, (merge_entry_sorted_nodup sampleEntry samplePage h).1,
    (merge_entry_sorted_nodup sampleEntry samplePage h).2⟩

/-- Claim C2: a historical fetch over a range spanning three full pages,
with the exchange returning exactly 1000 rows for each of the first
three page requests and a final partial page of 400 rows, yields exactly
3400 candles, ordered by timestamp and covering the range contiguously
with no gaps: with one-unit timeframes starting at 0 the timestamps are
exactly 0, 1, ..., 3399. -/
theorem fetch_three_pages_complete :
    (histExch 0 1000).length = 1000 ∧ (histExch 1000 1000).length = 1000
      ∧ (histExch 2000 1000).length = 1000 ∧ (histExch 3000 1000).length = 400
      ∧ (fetch_historical histExch 1 1000 0 3399).length = 3400
      ∧ (fetch_historical histExch 1 1000 0 3399).map Candle.timestamp
          = List.range 3400 := by
  refine ⟨?_, ?_, ?_, ?_, ?_, ?_⟩
  · norm_num [histExch, List.length_map, List.length_range']
  · norm_num [histExch, List.length_map, List.length_range']
  · norm_num [histExch, List.length_map, List.length_range']
  · norm_num [histExch, List.length_map, List.length_range']
  · rw [fetch_historical_eval]
    simp [List.length_map]
  · rw [fetch_historical_eval, List.map_map]
    have hid : (Candle.timestamp ∘ mkCandle) = id := funext (fun t => rfl)
    rw [hid, List.map_id]

/-- Claim C4: merging the same (sorted) historical page twice yields
exactly the same cache state as merging it once, for any sorted prior
cache state. -/
theorem merge_idempotent (entry page : List Candle)
    (he : EntrySorted entry) (hp : EntrySorted page) :
    merge (merge entry page) page = merge entry page :=
  merge_merge_self he hp

theorem merge_idempotent_witness :
    EntrySorted sampleEntry ∧ EntrySorted samplePage
      ∧ merge (merge sampleEntry samplePage) samplePage
          = merge sampleEntry samplePage := by
  have h1 : EntrySorted sampleEntry := by decide
  have h2 : EntrySorted samplePage := by decide
  exact ⟨h1, h2, merge_idempotent sampleEntry samplePage h1 h2⟩

/-- Claim C7: a single rejected row never aborts a page: a sorted page
whose validation keeps 999 rows merges exactly those 999 valid candles
into a fresh cache entry; the rejection is skipped, not propagated. -/
theorem page_partial_failure (tf : ℕ) (page : List Candle)
    (hs : EntrySorted page)
    (hlen : (pageValid tf 0 page).length = 999) :
    ingestPage tf 0 [] page = pageValid tf 0 page
      ∧ (ingestPage tf 0 [] page).length = 999 := by
  have hsv : EntrySorted (pageValid tf 0 page) :=
    List.Pairwise.sublist (List.filter_sublist page) hs
  have hmerge : merge [] (pageValid tf 0 page) = pageValid tf 0 page :=
    merge_nil_eq hsv
  have hmain : ingestPage tf 0 [] page = pageValid tf 0 page := hmerge
  refine ⟨hmain, ?_⟩
  rw [hmain, hlen]

theorem page_partial_failure_witness :
    EntrySorted page1000 ∧ (pageValid 1 0 page1000).length = 999
      ∧ ingestPage 1 0 [] page1000 = pageValid 1 0 page1000
      ∧ (ingestPage 1 0 [] page1000).length = 999 := by
  have hs : EntrySorted page1000 := by
    unfold page1000
    apply List.pairwise_map.mpr
    apply List.Pairwise.imp ?_ (List.pairwise_lt_range 1000)
    intro a b hab
    have ha : ((fun i => if i = 500 then badCandle i else mkCandle i) a).timestamp = a := by
      by_cases h : a = 500 <;> simp [badCandle, mkCandle, h]
    have hb : ((fun i => if i = 500 then badCandle i else mkCandle i) b).timestamp = b := by
      by_cases h : b = 500 <;> simp [badCandle, mkCandle, h]
    rw [ha, hb]
    exact hab
  have hlen : (pageValid 1 0 page1000).length = 999 := by decide
  exact ⟨hs, hlen, (page_partial_failure 1 page1000 hs hlen).1,
    (page_partial_failure 1 page1000 hs hlen).2⟩

end MarketIngest

namespace MarketIngest

/-- Claim C3: resolving an exchange identifier fails (the spec's
UnsupportedExchangeError) exactly when the identifier is not a known
client factory; a known identifier outside the optimized list is
accepted with only a logged advisory, never an error. -/
theorem resolve_exchange_contract (ccxtHas : String → Bool) (id : String) :
    ((∃ err, resolveExchange ccxtHas id = Except.error err) ↔ ccxtHas id = false)
      ∧ (ccxtHas id = true → id ∉ supported_exchanges →
          resolveExchange ccxtHas id
            = Except.ok (⟨id, true, 30000⟩, some "not in optimized list")) := by
  constructor
  · constructor
    · rintro ⟨err, herr⟩
      by_cases h : ccxtHas id = true
      · simp [resolveExchange, init_exchange, h] at herr
      · simpa using h
    · intro h
      refine ⟨InitError.unsupportedExchange id, ?_⟩
      simp [resolveExchange, init_exchange, h]
  · intro h hns
    simp [resolveExchange, init_exchange, validate_exchange, h, hns]

theorem resolve_exchange_contract_witness :
    resolveExchange (fun s => s == "binance" || s == "okx") "okx"
        = Except.ok (⟨"okx", true, 30000⟩, some "not in optimized list")
      ∧ ∃ err, resolveExchange (fun s => s == "binance" || s == "okx") "ftx"
          = Except.error err := by
  constructor
  · exact (resolve_exchange_contract (fun s => s == "binance" || s == "okx")
      "okx").2 (by decide) (by decide)
  · exact (resolve_exchange_contract (fun s => s == "binance" || s == "okx")
      "ftx").1.mpr (by decide)

/-- Claim C5: two successive grants through the same adapter's rate
limiter are separated by at least `minInterval`, and the constructor's
defaults are `last_request_time = 0` and a 200 ms (0.2 s) interval. -/
theorem rate_limit_spacing (st : RateLimitState) (now1 now2 : ℕ) :
    (acquire st now1).1 + st.minInterval ≤ (acquire (acquire st now1).2 now2).1
      ∧ initRateLimit.minInterval = 200 ∧ initRateLimit.lastRequestTime = 0 := by
  refine ⟨?_, rfl, rfl⟩
  show max now1 (st.lastRequestTime + st.minInterval) + st.minInterval
    ≤ max now2 (max now1 (st.lastRequestTime + st.minInterval) + st.minInterval)
  exact le_max_right _ _

/-- Claim C6: `validate` rejects whenever any of open/high/low/close/
volume is NaN or negative, or `high < low`, or `high < max(open,close)`,
or `low > min(open,close)`; in particular a row with `high < low` never
reaches the merge. -/
theorem validate_rejects (tf wm : ℕ) (c : Candle) (page : List Candle) :
    ((c.open_.isNaN = true ∨ c.high.isNaN = true ∨ c.low.isNaN = true
        ∨ c.close.isNaN = true ∨ c.volume.isNaN = true
        ∨ c.open_.isNeg = true ∨ c.high.isNeg = true ∨ c.low.isNeg = true
        ∨ c.close.isNeg = true ∨ c.volume.isNeg = true
        ∨ FVal.flt c.high c.low = true
        ∨ FVal.flt c.high (FVal.fmax c.open_ c.close) = true
        ∨ FVal.flt (FVal.fmin c.open_ c.close) c.low = true) →
      (validate tf wm c).isSome = true)
    ∧ (FVal.flt c.high c.low = true → c ∉ pageValid tf wm page) := by
  constructor
  · intro h
    unfold validate
    split_ifs with h1 h2 h3 h4
    · rfl
    · rfl
    · rfl
    · rfl
    · simp only [Bool.or_eq_true, not_or] at h1 h2
      rcases h with h | h | h | h | h | h | h | h | h | h | h | h | h <;> simp_all
  · intro hflt hmem
    have hval := (List.mem_filter.mp hmem).2
    unfold validate at hval
    split_ifs at hval with h1 h2 h3 h4 <;> simp_all

theorem validate_rejects_witness :
    (FVal.flt (badCandle 0).high (badCandle 0).low = true
      ∧ (validate 1 0 (badCandle 0)).isSome = true)
      ∧ badCandle 0 ∉ pageValid 1 0 [badCandle 0] := by
  have h := validate_rejects 1 0 (badCandle 0) [badCandle 0]
  exact ⟨⟨by decide, h.1 (by decide)⟩, h.2 (by decide)⟩

/-- Claim C8: a transient page error retries with exponential backoff,
base 1 s capped at 30 s, for at most 5 attempts.  If all 5 attempts
fail, the fetch fails with IngestionFailedError carrying the series key
and the cause, after sleeping 1000, 2000, 4000, 8000 ms; an attempt
succeeding before exhaustion yields the rows and no failure. -/
theorem retry_backoff_contract (key : SeriesKey)
    (att : ℕ → Except String (List Candle)) (causes : ℕ → String)
    (rows : List Candle) (k : ℕ) :
    ((∀ i, i < 5 → att i = Except.error (causes i)) →
        fetchPage key att
          = ([1000, 2000, 4000, 8000], Except.error ⟨key, causes 4⟩))
      ∧ (k < 5 → (∀ i, i < k → ∃ e, att i = Except.error e) →
          att k = Except.ok rows → (fetchPage key att).2 = Except.ok rows)
      ∧ (∀ i, backoffDelay i ≤ 30000) := by
  refine ⟨?_, ?_, fun i => Nat.min_le_right _ _⟩
  · intro h
    have h0 := h 0 (by omega)
    have h1 := h 1 (by omega)
    have h2 := h 2 (by omega)
    have h3 := h 3 (by omega)
    have h4 := h 4 (by omega)
    simp [fetchPage, retryFetch, h0, h1, h2, h3, h4, backoffDelay]
  · intro hk hprev hok
    interval_cases k
    · simp [fetchPage, retryFetch, hok]
    · obtain ⟨e0, h0⟩ := hprev 0 (by omega)
      simp [fetchPage, retryFetch, h0, hok]
    · obtain ⟨e0, h0⟩ := hprev 0 (by omega)
      obtain ⟨e1, h1⟩ := hprev 1 (by omega)
      simp [fetchPage, retryFetch, h0, h1, hok]
    · obtain ⟨e0, h0⟩ := hprev 0 (by omega)
      obtain ⟨e1, h1⟩ := hprev 1 (by omega)
      obtain ⟨e2, h2⟩ := hprev 2 (by omega)
      simp [fetchPage, retryFetch, h0, h1, h2, hok]
    · obtain ⟨e0, h0⟩ := hprev 0 (by omega)
      obtain ⟨e1, h1⟩ := hprev 1 (by omega)
      obtain ⟨e2, h2⟩ := hprev 2 (by omega)
      obtain ⟨e3, h3⟩ := hprev 3 (by omega)
      simp [fetchPage, retryFetch, h0, h1, h2, h3, hok]

theorem retry_backoff_contract_witness :
    fetchPage wKey attFail
        = ([1000, 2000, 4000, 8000], Except.error ⟨wKey, "network timeout"⟩)
      ∧ (fetchPage wKey attFlaky).2 = Except.ok [mkCandle 0] := by
  constructor
  · exact (retry_backoff_contract wKey attFail (fun _ => "network timeout")
      [] 0).1 (fun i _ => rfl)
  · exact (retry_backoff_contract wKey attFlaky (fun _ => "") [mkCandle 0]
      2).2.1 (by omega) (fun i hi => ⟨"network timeout", by simp [attFlaky, hi]⟩)
      (by norm_num [attFlaky])

/-- Claim C9 (documents a code bug): with no credentials file anywhere
and FIREBASE_CREDENTIALS_PATH unset, `_find_credentials` does not raise
FileNotFoundError: `Path(os.getenv(..., ""))` is `Path('.')`, which
always exists, so it returns `"."` and the constructor instead fails
inside Firebase initialization with a certificate error.  When the
variable is set to a nonexistent path, the FileNotFoundError branch is
reachable.  In both environments the failure propagates out of the
constructor, so no ingestor is ever created without working persistence. -/
theorem find_credentials_dot_bug :
    ("." ∈ possiblePaths envNoCreds
        ∧ (∀ p ∈ possiblePaths envNoCreds, envNoCreds.fileExists p = true → p = "."))
      ∧ find_credentials envNoCreds = Except.ok "."
      ∧ MarketDataIngestor.create (fun s => s == "binance") "binance" envNoCreds none
          = Except.error (AppError.firebase (FbError.initFailed "certificate"))
      ∧ find_credentials envVarSet = Except.error FbError.fileNotFound
      ∧ MarketDataIngestor.create (fun s => s == "binance") "binance" envVarSet none
          = Except.error (AppError.firebase FbError.fileNotFound) :=
  ⟨⟨by decide, by decide⟩, rfl, rfl, rfl, rfl⟩

/-- Claim C10: `get_firebase` is a singleton accessor: once the first
call succeeds, every later call returns that same instance without
consulting the environment again, and any two later calls agree. -/
theorem get_firebase_singleton (e e' e'' : FsEnv) (m : FirebaseManager)
    (st1 : Option FirebaseManager)
    (h : get_firebase e none = (Except.ok m, st1)) :
    get_firebase e' st1 = (Except.ok m, st1)
      ∧ (get_firebase e'' (get_firebase e' st1).2).1 = Except.ok m := by
  have hst : st1 = some m := by
    unfold get_firebase at h
    cases hc : FirebaseManager.create e with
    | ok m0 =>
      rw [hc] at h
      simp at h
      rw [← h.1, ← h.2]
    | error err =>
      rw [hc] at h
      simp at h
  subst hst
  exact ⟨rfl, rfl⟩

theorem get_firebase_singleton_witness :
    get_firebase envNoCreds (some mgrGood) = (Except.ok mgrGood, some mgrGood)
      ∧ (get_firebase envVarSet (get_firebase envNoCreds (some mgrGood)).2).1
          = Except.ok mgrGood :=
  get_firebase_singleton envGood envNoCreds envVarSet mgrGood (some mgrGood) rfl

end MarketIngest
